import Mathlib

/-!
Verification of the `bc_hash` crate (SHA-2/SHA-3 hashing, Merkle trees, and a
hash-chained block store) against its specification.

The Rust sources are shallowly embedded: machine integers become `Nat` with
explicit reduction `% 2 ^ w` where the source uses wrapping arithmetic, byte
buffers become `List Nat` (each element a byte value `< 256`), fallible
functions return `Except Err` and operations that can hit a Rust panic
(out-of-range slice indexing) return an `Outcome` with a dedicated `panicked`
constructor.  Loops whose iteration count is bounded by the input length are
embedded by structural recursion on an explicit iteration bound (`fuel`) that
provably dominates the number of iterations the Rust loop performs.

The trait `OneWayHasher<MDLEN>` is referenced by `merkle.rs` and `io.rs` but
its declaration is not among the provided sources; only its implementors
(`sha2.rs`, `sha3.rs`) are.  Modelled from the spec: a hasher is a state type
with the capability set `init` / `update` / `finish` (`HasherModel` below);
`finish` returns the digest together with the successor state, because the
implementations in `sha2.rs` mutate the context in place and do not reset it.
-/

namespace BcHash

/-- The error enumeration of `src/error.rs`.  Payloads that are `usize`/`u64`
in the source are `Nat`; the `std::io::ErrorKind` payload of `IOError` is
encoded as a `Nat` code (0 = `UnexpectedEof`), and the `ParseIntError` payload
of `ParseError` is dropped (only the variant matters to the claims). -/
inductive Err where
  | BadStreamPosition : Nat → Err
  | BlockNumDoesNotExist : Err
  | BlockSizeTooBig : Err
  | FileIsEmpty : Err
  | IntegerOverflow : Err
  | InvalidBlockHash : Nat → Err
  | InvalidBlockSize : Nat → Err
  | InvalidDataLength : Nat → Err
  | InvalidDigestLength : Nat → Err
  | InvalidFileSize : Err
  | InvalidIndex : Err
  | InvalidMerkleLeaves : Err
  | InvalidSliceLength : Err
  | IOError : Nat → Err
  | ParseError : Err
  | PathDoesNotExist : Err
  | PathIsNotAFile : Err
  | SliceTooLong : Err
  | SliceTooShort : Err
  | StringTooLong : Err
  | StringTooShort : Err
  | ZeroBlockSize : Err
  deriving DecidableEq

/-- Result of running a piece of Rust code that may also panic (for the
out-of-range slice index in `Writer::append` and the `.unwrap()` in
`Writer::new`). -/
inductive Outcome (α : Type) where
  | ok : α → Outcome α
  | error : Err → Outcome α
  | panicked : Outcome α
  deriving DecidableEq

/-- `rotate_right` on a `w`-bit word. -/
def rotr (w x n : Nat) : Nat := ((x >>> n) ||| (x <<< (w - n))) % 2 ^ w

/-- `to_be_bytes`: the `k` big-endian bytes of `x`. -/
def beBytes : Nat → Nat → List Nat
  | 0, _ => []
  | k + 1, x => beBytes k (x / 256) ++ [x % 256]

/-- Reassemble a big-endian byte list into a word (the `.to_be()` read of a
message-schedule word in `sha2.rs`). -/
def fromBE (l : List Nat) : Nat := l.foldl (fun a b => a * 256 + b) 0

/-- `CONSTANTS_256` of `sha2.rs` (the rows are appended so the table reads
like the 8-per-line layout of the source). -/
def K256 : List Nat :=
  [0x428a2f98, 0x71374491, 0xb5c0fbcf, 0xe9b5dba5, 0x3956c25b, 0x59f111f1, 0x923f82a4, 0xab1c5ed5]
  ++ [0xd807aa98, 0x12835b01, 0x243185be, 0x550c7dc3, 0x72be5d74, 0x80deb1fe, 0x9bdc06a7, 0xc19bf174]
  ++ [0xe49b69c1, 0xefbe4786, 0x0fc19dc6, 0x240ca1cc, 0x2de92c6f, 0x4a7484aa, 0x5cb0a9dc, 0x76f988da]
  ++ [0x983e5152, 0xa831c66d, 0xb00327c8, 0xbf597fc7, 0xc6e00bf3, 0xd5a79147, 0x06ca6351, 0x14292967]
  ++ [0x27b70a85, 0x2e1b2138, 0x4d2c6dfc, 0x53380d13, 0x650a7354, 0x766a0abb, 0x81c2c92e, 0x92722c85]
  ++ [0xa2bfe8a1, 0xa81a664b, 0xc24b8b70, 0xc76c51a3, 0xd192e819, 0xd6990624, 0xf40e3585, 0x106aa070]
  ++ [0x19a4c116, 0x1e376c08, 0x2748774c, 0x34b0bcb5, 0x391c0cb3, 0x4ed8aa4a, 0x5b9cca4f, 0x682e6ff3]
  ++ [0x748f82ee, 0x78a5636f, 0x84c87814, 0x8cc70208, 0x90befffa, 0xa4506ceb, 0xbef9a3f7, 0xc67178f2]

/-- `INITIAL_VALUES_256` of `sha2.rs`. -/
def IV256 : List Nat :=
  [0x6a09e667, 0xbb67ae85, 0x3c6ef372, 0xa54ff53a, 0x510e527f, 0x9b05688c, 0x1f83d9ab, 0x5be0cd19]

/-- sigma0 / sigma1 of `extend_msg_schedule!`: two rotations and one shift. -/
def smallSigma (w r1 r2 r3 x : Nat) : Nat := (rotr w x r1) ^^^ (rotr w x r2) ^^^ (x >>> r3)

/-- `extend_msg_schedule!` of `sha2.rs`: starting from the 16 words parsed from
the chunk, append `n` further schedule words. -/
def extendSchedule (w r1 r2 r3 r4 r5 r6 : Nat) : Nat → List Nat → List Nat
  | 0, ws => ws
  | n + 1, ws =>
    let i := ws.length - 16
    let w0 := ws.getD i 0
    let w1 := smallSigma w r1 r2 r3 (ws.getD (i + 1) 0)
    let w9 := ws.getD (i + 9) 0
    let w14 := smallSigma w r4 r5 r6 (ws.getD (i + 14) 0)
    extendSchedule w r1 r2 r3 r4 r5 r6 n (ws ++ [(w0 + (w1 + (w9 + w14))) % 2 ^ w])

/-- One iteration of `compression_loop!`; `v` is the working-variable vector
`[a, b, c, d, e, f, g, h]` and `kw` the pair of round constant and schedule
word. -/
def sha2Round (w R1 R2 R3 R4 R5 R6 : Nat) (v : List Nat) (kw : Nat × Nat) : List Nat :=
  let a := v.getD 0 0
  let b := v.getD 1 0
  let c := v.getD 2 0
  let d := v.getD 3 0
  let e := v.getD 4 0
  let f := v.getD 5 0
  let g := v.getD 6 0
  let h := v.getD 7 0
  let sigma0 := (rotr w a R1) ^^^ (rotr w a R2) ^^^ (rotr w a R3)
  let sigma1 := (rotr w e R4) ^^^ (rotr w e R5) ^^^ (rotr w e R6)
  let choice := (e &&& f) ^^^ ((e ^^^ (2 ^ w - 1)) &&& g)
  let majority := (a &&& b) ^^^ (a &&& c) ^^^ (b &&& c)
  let temp1 := (h + (sigma1 + (choice + (kw.1 + kw.2)))) % 2 ^ w
  let temp2 := (sigma0 + majority) % 2 ^ w
  [(temp1 + temp2) % 2 ^ w, a, b, c, (d + temp1) % 2 ^ w, e, f, g]

/-- The compression function applied to one full chunk: parse the chunk as 16
big-endian words, extend the schedule to `K.length` words, run the compression
loop over all constants, and add the working variables back into the state
(all arithmetic wrapping at `2 ^ w`). -/
def sha2Compress (w r1 r2 r3 r4 r5 r6 R1 R2 R3 R4 R5 R6 : Nat) (K : List Nat)
    (st chunk : List Nat) : List Nat :=
  let nb := w / 8
  let ws0 := (List.range 16).map (fun i => fromBE ((chunk.drop (nb * i)).take nb))
  let ws := extendSchedule w r1 r2 r3 r4 r5 r6 (K.length - 16) ws0
  let vars := (K.zip ws).foldl (sha2Round w R1 R2 R3 R4 R5 R6) st
  (st.zip vars).map (fun p => (p.1 + p.2) % 2 ^ w)

/-- The SHA-256 compression function (`extend_msg_schedule!(u32, 64, 7, 18, 3,
17, 19, 10)` and `compression_loop!(u32, CONSTANTS_256, 2, 13, 22, 6, 11,
25)`). -/
def sha256Compress (st chunk : List Nat) : List Nat :=
  sha2Compress 32 7 18 3 17 19 10 2 13 22 6 11 25 K256 st chunk

/-- A SHA-2 context (`Context` of `sha2.rs`): chaining state `st`, the
residual bytes of the message-schedule buffer (`msg_sch.b[0 .. msg_num)`), and
the total byte count `len`. -/
structure Sha2Ctx where
  st : List Nat
  buf : List Nat
  len : Nat
  deriving DecidableEq

/-- The `transform!` loop.  `fuel` bounds the number of loop iterations; the
Rust loop runs `while bytes_copied < data.len()` and consumes
`min(remaining, chunkLen - msg_num)` bytes per iteration, which is at least one
whenever the residual buffer is not full, and a full buffer is flushed by the
compression branch, so `2 * data.length + 1` iterations always suffice (made
precise by `sha2UpdateGo_eq_foldl`). -/
def sha2UpdateGo (chunkLen : Nat) (compress : List Nat → List Nat → List Nat) :
    Nat → Sha2Ctx → List Nat → Sha2Ctx
  | 0, s, _ => s
  | fuel + 1, s, data =>
    if data.length = 0 then s
    else
      let n := min data.length (chunkLen - s.buf.length)
      let s1 : Sha2Ctx := ⟨s.st, s.buf ++ data.take n, s.len + n⟩
      let s2 : Sha2Ctx := if s1.buf.length = chunkLen then ⟨compress s1.st s1.buf, [], s1.len⟩ else s1
      sha2UpdateGo chunkLen compress fuel s2 (data.drop n)

/-- `update` of `sha2.rs` (the `transform!` macro). -/
def sha2Update (chunkLen : Nat) (compress : List Nat → List Nat → List Nat)
    (s : Sha2Ctx) (data : List Nat) : Sha2Ctx :=
  sha2UpdateGo chunkLen compress (2 * data.length + 1) s data

/-- `Sha256::init()` (`new_context!(INITIAL_VALUES_256)`). -/
def sha256Init : Sha2Ctx := ⟨IV256, [], 0⟩

/-- `Sha256::update` with the concrete chunk length 64 and SHA-256 compression. -/
def sha256Update (s : Sha2Ctx) (data : List Nat) : Sha2Ctx :=
  sha2Update 64 sha256Compress s data

/-- `wrap_up!(self, u64, digest, 32, 64)` — `Sha256::finish`.  The padding
buffer is `0x80`, then zeros while `(buf.len + msg_num + 8) % 64 != 0` (the
closed form below counts exactly the zeros that loop pushes), then the message
bit length as a big-endian `u64`; the context absorbs the buffer and the first
eight state words are serialized big-endian.  The mutated context is returned
alongside the digest because the source leaves it dirty. -/
def sha256Finish (s : Sha2Ctx) : Sha2Ctx × List Nat :=
  let zeros := (64 - ((s.buf.length + 9) % 64)) % 64
  let pad := 128 :: (List.replicate zeros 0 ++ beBytes 8 ((s.len * 8) % 2 ^ 64))
  let s1 := sha256Update s pad
  (s1, ((s1.st.take 8).map (beBytes 4)).flatten)

/-- Hashing a whole message with `Sha256`: `init`, one `update`, `finish`. -/
def sha256 (msg : List Nat) : List Nat := (sha256Finish (sha256Update sha256Init msg)).2

/-- `KECCAKF_RNDC` of `sha3.rs` (rows appended as in `K256`). -/
def KECCAKF_RNDC : List Nat :=
  [0x0000000000000001, 0x0000000000008082, 0x800000000000808a, 0x8000000080008000]
  ++ [0x000000000000808b, 0x0000000080000001, 0x8000000080008081, 0x8000000000008009]
  ++ [0x000000000000008a, 0x0000000000000088, 0x0000000080008009, 0x000000008000000a]
  ++ [0x000000008000808b, 0x800000000000008b, 0x8000000000008089, 0x8000000000008003]
  ++ [0x8000000000008002, 0x8000000000000080, 0x000000000000800a, 0x800000008000000a]
  ++ [0x8000000080008081, 0x8000000000008080, 0x0000000080000001, 0x8000000080008008]

/-- `KECCAKF_ROTC` of `sha3.rs`. -/
def KECCAKF_ROTC : List Nat :=
  [1, 3, 6, 10, 15, 21, 28, 36, 45, 55, 2, 14, 27, 41, 56, 8, 25, 43, 62, 18, 39, 61, 20, 44]

/-- `KECCAKF_PILN` of `sha3.rs`. -/
def KECCAKF_PILN : List Nat :=
  [10, 7, 11, 17, 18, 3, 5, 16, 8, 21, 24, 4, 15, 23, 19, 13, 12, 2, 20, 14, 22, 9, 6, 1]

/-- `rotate_left` on a `w`-bit word. -/
def rotl (w x n : Nat) : Nat := ((x <<< n) ||| (x >>> (w - n))) % 2 ^ w

/-- `to_le_bytes`: the `k` little-endian bytes of `x`. -/
def leBytes : Nat → Nat → List Nat
  | 0, _ => []
  | k + 1, x => x % 256 :: leBytes k (x / 256)

/-- Reassemble little-endian bytes into a word. -/
def fromLE (l : List Nat) : Nat := l.foldr (fun b a => a * 256 + b) 0

/-- The little-endian union view `st.q` of the 200 state bytes `st.b`
(`sha3.rs` aliases them through a `union`; on little-endian hosts lane `i` is
bytes `8*i .. 8*i+8`). -/
def bytesToLanes (b : List Nat) : List Nat :=
  (List.range 25).map (fun i => fromLE ((b.drop (8 * i)).take 8))

/-- Serialize the 25 lanes back to the 200-byte view. -/
def lanesToBytes (q : List Nat) : List Nat := (q.map (leBytes 8)).flatten

/-- The Theta step of `keccakf`. -/
def keccakTheta (q : List Nat) : List Nat :=
  let bc := (List.range 5).map (fun i =>
    (q.getD i 0) ^^^ (q.getD (i + 5) 0) ^^^ (q.getD (i + 10) 0) ^^^
    (q.getD (i + 15) 0) ^^^ (q.getD (i + 20) 0))
  (List.range 25).map (fun k =>
    (q.getD k 0) ^^^ ((bc.getD ((k % 5 + 4) % 5) 0) ^^^ rotl 64 (bc.getD ((k % 5 + 1) % 5) 0) 1))

/-- The Rho–Pi step of `keccakf`: the source chains
`bc[0] = st.q[j]; st.q[j] = t.rotate_left(ROTC[i]); t = bc[0]` over the 24
`PILN` positions starting from `t = st.q[1]`; the fold state is the pair of
the lane vector and `t`. -/
def keccakRhoPi (q : List Nat) : List Nat :=
  ((List.range 24).foldl (fun (p : List Nat × Nat) i =>
      let j := KECCAKF_PILN.getD i 0
      let bc0 := p.1.getD j 0
      (p.1.set j (rotl 64 p.2 (KECCAKF_ROTC.getD i 0)), bc0))
    (q, q.getD 1 0)).1

/-- The Chi step of `keccakf`: each row is copied into `bc` before being
rewritten, so every read below is from the pre-update row. -/
def keccakChi (q : List Nat) : List Nat :=
  (List.range 25).map (fun k =>
    let j := 5 * (k / 5)
    let i := k % 5
    (q.getD k 0) ^^^
      (((q.getD (j + (i + 1) % 5) 0) ^^^ (2 ^ 64 - 1)) &&& (q.getD (j + (i + 2) % 5) 0)))

/-- One round of `keccakf`: Theta, Rho–Pi, Chi, Iota. -/
def keccakRound (q : List Nat) (rc : Nat) : List Nat :=
  let q3 := keccakChi (keccakRhoPi (keccakTheta q))
  q3.set 0 ((q3.getD 0 0) ^^^ rc)

/-- `keccakf` of `sha3.rs` on the 200-byte state view (the endianness
conversions in the source are identities on little-endian hosts; the lane view
is little-endian as in Design Note 1 of the spec). -/
def keccakf (b : List Nat) : List Nat :=
  lanesToBytes (KECCAKF_RNDC.foldl keccakRound (bytesToLanes b))

/-- A SHA-3 context (`Context` of `sha3.rs`): 200 state bytes, the byte cursor
`pt`, and the rate `rsiz = 200 - 2*B`. -/
structure Sha3Ctx where
  st : List Nat
  pt : Nat
  rsiz : Nat
  deriving DecidableEq

/-- One iteration of the `for byte in data` loop of `Context::update` in
`sha3.rs`: XOR the byte into `st.b[j]`, advance `j`, and permute when `j`
reaches the rate.  The permutation is a parameter so that the statement covers
every SHA-3/SHAKE instance at once; the crate instantiates it with `keccakf`. -/
def sha3Absorb (perm : List Nat → List Nat) (s : Sha3Ctx) (byte : Nat) : Sha3Ctx :=
  let st := s.st.set s.pt ((s.st.getD s.pt 0) ^^^ byte)
  let j := s.pt + 1
  if s.rsiz ≤ j then ⟨perm st, 0, s.rsiz⟩ else ⟨st, j, s.rsiz⟩

/-- `Context::update` of `sha3.rs`: the byte loop is a left fold of
`sha3Absorb` (the local `j` is the `pt` component of the fold state). -/
def sha3Update (perm : List Nat → List Nat) (s : Sha3Ctx) (data : List Nat) : Sha3Ctx :=
  List.foldl (sha3Absorb perm) s data

/-- `Context::<B, D>::init()` of `sha3.rs`. -/
def sha3Init (B : Nat) : Sha3Ctx := ⟨List.replicate 200 0, 0, 200 - 2 * B⟩

/-- `Context::finish` of `sha3.rs`: domain tag 0x06, final bit 0x80 on the
last rate byte, one permutation, and the first `D` state bytes as digest. -/
def sha3Finish (D : Nat) (s : Sha3Ctx) : Sha3Ctx × List Nat :=
  let st := s.st.set s.pt ((s.st.getD s.pt 0) ^^^ 0x06)
  let st1 := st.set (s.rsiz - 1) ((st.getD (s.rsiz - 1) 0) ^^^ 0x80)
  let st2 := keccakf st1
  (⟨st2, s.pt, s.rsiz⟩, st2.take D)

/-- Modelled from the spec: the capability set `init` / `update` / `finish` of
the `OneWayHasher<MDLEN>` trait (its declaration is not among the provided
sources; `merkle.rs` and `io.rs` are generic over it and `sha2.rs` / `sha3.rs`
implement it).  `finish` yields the digest together with the successor context
because the implementations leave the context dirty instead of resetting it. -/
structure HasherModel (σ : Type) where
  init : σ
  update : σ → List Nat → σ
  finish : σ → σ × List Nat

/-- The `Sha256` implementation of the hasher capability (`sha2.rs`). -/
def sha256Model : HasherModel Sha2Ctx := ⟨sha256Init, sha256Update, sha256Finish⟩

/-! ## Merkle engine (`src/merkle.rs`) -/

/-- The adjacent-pair scan `for i in 0..leaves.len()-1 { if leaves[i] ==
leaves[i+1] { mutation = true } }`. -/
def scanAdj : List (List Nat) → Bool
  | a :: b :: rest => (a == b) || scanAdj (b :: rest)
  | _ => false

/-- The odd-length duplication step of `compute_root` / `compute_proof`:
`if leaves.len() & 1 != 0 { match leaves.last() { Some(d) => push(*d), None =>
return Err(InvalidMerkleLeaves) } }`. -/
def duplicateLast (l : List (List Nat)) : Except Err (List (List Nat)) :=
  if l.length % 2 = 1 then
    match l.getLast? with
    | some d => .ok (l ++ [d])
    | none => .error .InvalidMerkleLeaves
  else .ok l

/-- The pair-hashing loop `for i in 0..(leaves.len() / 2) { hasher
.update(&leaves[i*2]).update(&leaves[i*2+1]).finish(&mut leaves[i]) }` with the
single hasher threaded through the pairs; the results land in the prefix that
`truncate(leaves.len() / 2)` keeps (a trailing odd leftover is dropped, as the
rounded-down loop bound drops it in the source). -/
def hashPairs (M : HasherModel σ) : σ → List (List Nat) → σ × List (List Nat)
  | h, a :: b :: rest =>
    let hd := M.finish (M.update (M.update h a) b)
    let r := hashPairs M hd.1 rest
    (r.1, hd.2 :: r.2)
  | h, _ => (h, [])

/-- The `while leaves.len() > 1` loop of `compute_root`.  `fuel` bounds the
number of iterations; each iteration at least halves the list, so
`leaves.length` iterations always suffice (`computeRootGo_ok` shows every run
ends in `.ok` regardless). -/
def computeRootGo (M : HasherModel σ) :
    Nat → σ → Bool → List (List Nat) → Except Err (List (List Nat) × Bool)
  | 0, _, mu, l => .ok (l, mu)
  | fuel + 1, h, mu, l =>
    if l.length ≤ 1 then .ok (l, mu)
    else
      let mu1 := mu || scanAdj l
      match duplicateLast l with
      | .error e => .error e
      | .ok l1 =>
        let hp := hashPairs M h l1
        computeRootGo M fuel hp.1 mu1 hp.2

/-- `compute_root` of `merkle.rs`: a single hasher `H::init()` is created and
threaded through every pair of every level without being reset; the function
returns the reduced vector (the root when non-empty) and the mutation flag. -/
def computeRoot (M : HasherModel σ) (l : List (List Nat)) :
    Except Err (List (List Nat) × Bool) :=
  computeRootGo M l.length M.init false l

/-- `ChildNode` of `merkle.rs`. -/
inductive ChildNode where
  | left : List Nat → ChildNode
  | right : List Nat → ChildNode
  deriving DecidableEq

/-- The loop of `compute_proof`: like `computeRootGo`, but additionally pushing
`Left(leaves[index ^ 1])` when `index` is odd and `Right(leaves[index ^ 1])`
when even (after the duplication step), then halving `index` (`index >>= 1`). -/
def computeProofGo (M : HasherModel σ) :
    Nat → σ → Bool → List ChildNode → Nat → List (List Nat) →
    Except Err (List ChildNode × Bool)
  | 0, _, mu, proof, _, _ => .ok (proof, mu)
  | fuel + 1, h, mu, proof, index, l =>
    if l.length ≤ 1 then .ok (proof, mu)
    else
      let mu1 := mu || scanAdj l
      match duplicateLast l with
      | .error e => .error e
      | .ok l1 =>
        let node := if index % 2 = 1 then ChildNode.left (l1.getD (index ^^^ 1) [])
                    else ChildNode.right (l1.getD (index ^^^ 1) [])
        let hp := hashPairs M h l1
        computeProofGo M fuel hp.1 mu1 (proof ++ [node]) (index / 2) hp.2

/-- `compute_proof` of `merkle.rs` (the `index >= leaves.len()` precondition
check, then the reduction loop). -/
def computeProof (M : HasherModel σ) (l : List (List Nat)) (index : Nat) :
    Except Err (List ChildNode × Bool) :=
  if index ≥ l.length then .error .InvalidIndex
  else computeProofGo M l.length M.init false [] index l

/-- The fold of `prove` in `merkle.rs`: a fresh hasher, then for each node
`Left(s)` the digest becomes `finish(update(update(h, s), d))` and for
`Right(s)` it becomes `finish(update(update(h, d), s))`, the hasher again being
threaded un-reset. -/
def proveGo (M : HasherModel σ) : σ → List Nat → List ChildNode → List Nat
  | _, d, [] => d
  | h, d, node :: rest =>
    match node with
    | .left s =>
      let hd := M.finish (M.update (M.update h s) d)
      proveGo M hd.1 hd.2 rest
    | .right s =>
      let hd := M.finish (M.update (M.update h d) s)
      proveGo M hd.1 hd.2 rest

/-- `prove` of `merkle.rs`: fold the proof over the starting digest. -/
def prove (M : HasherModel σ) (proof : List ChildNode) (digest : List Nat) : List Nat :=
  proveGo M M.init digest proof

/-! ## Block streams (`src/io.rs`) -/

/-- `block_count` of `io.rs`, with `file` the byte contents of the underlying
file (sizes are `u64` in the source; the values handled here stay below
`2 ^ 64`). -/
def blockCount (blockSize : Nat) (file : List Nat) : Except Err Nat :=
  if file.length = 0 then .error .FileIsEmpty
  else if file.length % blockSize ≠ 0 then .error .InvalidFileSize
  else .ok (file.length / blockSize)

/-- `validate_size` of `io.rs`. -/
def validateSize (blockSize : Nat) (file : List Nat) : Except Err Unit :=
  if file.length = 0 then .error .FileIsEmpty
  else if file.length % blockSize ≠ 0 then .error .InvalidFileSize
  else .ok ()

/-- `read_exact` on the buffered file: all `n` requested bytes when they are
available, `ErrorKind::UnexpectedEof` (code 0) otherwise. -/
def readExact (file : List Nat) (pos n : Nat) : Except Err (List Nat) :=
  if pos + n ≤ file.length then .ok ((file.drop pos).take n)
  else .error (.IOError 0)

/-- `Reader::validate_block_at` of `io.rs`: bounds check against
`block_count`, genesis short-circuit, `checked_mul` for the byte offset of
block `index - 1`, a full read of that block, a fresh hash of it, a read of the
next `MDLEN` bytes (the header of block `index`), and the comparison. -/
def validateBlockAt (MDLEN DATALEN : Nat) (M : HasherModel σ) (file : List Nat)
    (index : Nat) : Except Err Unit :=
  let blockSize := MDLEN + DATALEN
  match blockCount blockSize file with
  | .error e => .error e
  | .ok count =>
    if index ≥ count then .error .BlockNumDoesNotExist
    else if index = 0 then .ok ()
    else if 2 ^ 64 ≤ (index - 1) * blockSize then .error .IntegerOverflow
    else
      match readExact file ((index - 1) * blockSize) blockSize with
      | .error e => .error e
      | .ok buf =>
        let prevDigest := (M.finish (M.update M.init buf)).2
        match readExact file ((index - 1) * blockSize + blockSize) MDLEN with
        | .error e => .error e
        | .ok hdr =>
          if hdr ≠ prevDigest then .error (.InvalidBlockHash index) else .ok ()

/-- A `Reader` as far as positioning is concerned: file contents plus the
underlying byte position of the `BufReader`. -/
structure ReaderSt where
  file : List Nat
  pos : Nat
  deriving DecidableEq

/-- `Reader::seek` of `io.rs`: `index.checked_mul(block_size)` (u64,
`IntegerOverflow` on wrap), then `SeekFrom::Start(pos)`; the inner seek
returns the new byte position, which `seek` passes through. -/
def readerSeek (MDLEN DATALEN : Nat) (r : ReaderSt) (index : Nat) :
    Except Err (ReaderSt × Nat) :=
  let blockSize := MDLEN + DATALEN
  if 2 ^ 64 ≤ index * blockSize then .error .IntegerOverflow
  else .ok (⟨r.file, index * blockSize⟩, index * blockSize)

/-- `Reader::stream_position` of `io.rs`: the raw byte position, or
`BadStreamPosition` when it is not a multiple of the block size. -/
def readerStreamPosition (MDLEN DATALEN : Nat) (r : ReaderSt) : Except Err Nat :=
  let blockSize := MDLEN + DATALEN
  if r.pos % blockSize ≠ 0 then .error (.BadStreamPosition r.pos) else .ok r.pos

/-- Range slicing `&l[a..b]` as the source uses it: `none` models the Rust
panic for an out-of-range index. -/
def sliceRange (l : List Nat) (a b : Nat) : Option (List Nat) :=
  if a ≤ b ∧ b ≤ l.length then some ((l.drop a).take (b - a)) else none

/-- A `Writer`: file contents plus the in-memory `prev_hash` register. -/
structure WriterSt where
  file : List Nat
  prevHash : List Nat
  deriving DecidableEq

/-- `Writer::append` of `io.rs`: length check, seek to end, write `prev_hash`
then `data`, flush, then `prev_hash = finish(update(update(H::init(),
prev_hash), &data[0..block_size]))` — the slice bound is `block_size`, not
`data.len()`. -/
def writerAppend (MDLEN DATALEN : Nat) (M : HasherModel σ) (w : WriterSt)
    (data : List Nat) : Outcome WriterSt :=
  let blockSize := MDLEN + DATALEN
  if data.length ≠ DATALEN then .error .InvalidSliceLength
  else
    let file1 := w.file ++ w.prevHash ++ data
    match sliceRange data 0 blockSize with
    | none => .panicked
    | some dataSlice =>
      .ok ⟨file1, (M.finish (M.update (M.update M.init w.prevHash) dataSlice)).2⟩

/-- What `Writer::new` observes about a path: `path.exists()`,
`path.is_file()`, and the current contents when a file is present. -/
structure PathModel where
  pexists : Bool
  isFile : Bool
  contents : List Nat
  deriving DecidableEq

/-- `Writer::new` of `io.rs`: the `!path.is_file()` guard, the `DATALEN` and
`MDLEN` range guards, the existing-file branch (`Reader::new(path).unwrap()` —
`panicked` when the reader constructor fails — then hash of the last block
when the file is non-empty and a re-validation of the size), and the final
`create_new(true)` branch yielding an empty file and an all-zero register. -/
def writerNew (MDLEN DATALEN : Nat) (M : HasherModel σ) (p : PathModel) : Outcome WriterSt :=
  let blockSize := MDLEN + DATALEN
  if p.isFile = false then .error .PathIsNotAFile
  else if DATALEN = 0 ∨ (2 ^ 32 - 1) - MDLEN < DATALEN then .error (.InvalidDataLength DATALEN)
  else if MDLEN = 0 ∨ (2 ^ 32 - 1) - DATALEN < MDLEN then .error (.InvalidDigestLength MDLEN)
  else if p.pexists then
    match validateSize blockSize p.contents with
    | .error _ => .panicked
    | .ok _ =>
      let prevHash :=
        if p.contents.length ≠ 0 then
          (M.finish (M.update M.init
            ((p.contents.drop (p.contents.length - blockSize)).take blockSize))).2
        else List.replicate MDLEN 0
      match validateSize blockSize p.contents with
      | .error e => .error e
      | .ok _ => .ok ⟨p.contents, prevHash⟩
  else .ok ⟨[], List.replicate MDLEN 0⟩

/-! ## Digest hex parsing and formatting (`src/digest.rs`)

Strings are embedded as lists of Unicode code points (`List Nat`); ASCII
literals are written numerically (`48` = `'0'`, `120` = `'x'`, `43` = `'+'`,
`45` = `'-'`). -/

/-- `u8::to_ascii_lowercase` semantics character-wise (`str::
to_ascii_lowercase` maps only ASCII `A`-`Z`, code points 65–90). -/
def toAsciiLower (c : Nat) : Nat := if 65 ≤ c ∧ c ≤ 90 then c + 32 else c

/-- The code points with the Unicode `White_Space` property — exactly what
`str::trim` removes. -/
def wsCodes : List Nat :=
  [9, 10, 11, 12, 13, 32, 133, 160, 5760, 8192, 8193, 8194, 8195, 8196, 8197, 8198, 8199,
   8200, 8201, 8202, 8232, 8233, 8239, 8287, 12288]

/-- `char::is_whitespace`. -/
def isWs (c : Nat) : Bool := decide (c ∈ wsCodes)

/-- `str::trim`: drop whitespace from both ends. -/
def trimStr (l : List Nat) : List Nat :=
  ((l.dropWhile isWs).reverse.dropWhile isWs).reverse

/-- `str::strip_prefix("0x")` folded into its call site: drop a leading
`"0x"` when present, keep the string otherwise. -/
def stripPrefix0x (l : List Nat) : List Nat :=
  match l with
  | c0 :: c1 :: rest => if c0 = 48 ∧ c1 = 120 then rest else c0 :: c1 :: rest
  | _ => l

/-- `char::to_digit(16)`. -/
def hexDigitVal (c : Nat) : Option Nat :=
  if 48 ≤ c ∧ c ≤ 57 then some (c - 48)
  else if 97 ≤ c ∧ c ≤ 102 then some (c - 87)
  else if 65 ≤ c ∧ c ≤ 70 then some (c - 55)
  else none

/-- `to_digit(16)` applied to every character; `none` as soon as one fails. -/
def hexDigitsVals : List Nat → Option (List Nat)
  | [] => some []
  | c :: rest =>
    match hexDigitVal c, hexDigitsVals rest with
    | some d, some ds => some (d :: ds)
    | _, _ => none

/-- The digit run of `from_str_radix`: at least one radix-16 digit, folded
most-significant first, rejecting values beyond `u8::MAX` (all such failures
are `ParseIntError`s, embedded as `ParseError`). -/
def parseHexDigits (l : List Nat) : Except Err Nat :=
  if l.length = 0 then .error .ParseError
  else
    match hexDigitsVals l with
    | none => .error .ParseError
    | some ds =>
      let v := ds.foldl (fun a d => 16 * a + d) 0
      if 255 < v then .error .ParseError else .ok v

/-- `u8::from_str_radix(s, 16)`: an optional `+`/`-` sign followed by digits;
a `-` sign admits only the value zero for an unsigned target. -/
def fromStrRadix16u8 (l : List Nat) : Except Err Nat :=
  match l with
  | [] => .error .ParseError
  | c :: rest =>
    if c = 43 then parseHexDigits rest
    else if c = 45 then
      match parseHexDigits rest with
      | .ok 0 => .ok 0
      | .ok _ => .error .ParseError
      | .error e => .error e
    else parseHexDigits (c :: rest)

/-- The parsing loop of `Digest::from_str`: `for (i, offset) in
(0..S*2).step_by(2)` parses consecutive two-character slices with
`u8::from_str_radix(.., 16)`, propagating the first error.  The guard ensures
an even length, so the singleton fallback is unreachable. -/
def parsePairs : List Nat → Except Err (List Nat)
  | [] => .ok []
  | c1 :: c2 :: rest =>
    match fromStrRadix16u8 [c1, c2] with
    | .error e => .error e
    | .ok b =>
      match parsePairs rest with
      | .error e => .error e
      | .ok bs => .ok (b :: bs)
  | [_] => .error .ParseError

/-- `Digest::<S>::from_str` of `digest.rs`: lowercase, trim, strip an optional
`0x`, compare the remaining length against `S * 2`
(`StringTooLong` / `StringTooShort`), then parse byte pairs. -/
def digestFromStr (S : Nat) (string : List Nat) : Except Err (List Nat) :=
  let s := string.map toAsciiLower
  let src := stripPrefix0x (trimStr s)
  if 2 * S < src.length then .error .StringTooLong
  else if src.length < 2 * S then .error .StringTooShort
  else parsePairs src

/-- One lowercase hex digit (how `format!` with the `x` spec renders a
nibble). -/
def hexChar (n : Nat) : Nat := if n < 10 then 48 + n else 87 + n

/-- The two lowercase hex characters `format!` emits for one byte with the
`02x` spec. -/
def byteToHex (b : Nat) : List Nat := [hexChar (b / 16), hexChar (b % 16)]

/-- The `Display` implementation of `Digest`: concatenate the two hex digits
of every byte. -/
def digestToHex (d : List Nat) : List Nat := (d.map byteToHex).flatten

/-- Lowercase-hex-digit predicate (for the `/^[0-9a-f]*$/` clause of the
claim). -/
def isLowerHexDigit (c : Nat) : Bool := (48 ≤ c && c ≤ 57) || (97 ≤ c && c ≤ 102)

/-- Decidable equality for `Except`, so that concrete runs can be settled by
`decide`. -/
instance {e a : Type} [DecidableEq e] [DecidableEq a] : DecidableEq (Except e a) := fun x y =>
  match x, y with
  | .ok v, .ok w => decidable_of_iff (v = w) (by simp)
  | .error v, .error w => decidable_of_iff (v = w) (by simp)
  | .ok _, .error _ => isFalse (by simp)
  | .error _, .ok _ => isFalse (by simp)

/-- A one-byte toy hasher used to instantiate generic theorems in witnesses. -/
def unitHasher : HasherModel Unit := ⟨(), fun _ _ => (), fun _ => ((), [7])⟩

/-- The three pairwise-distinct 32-byte leaves used as concrete Merkle inputs. -/
def leavesABC : List (List Nat) :=
  [List.replicate 32 0, List.replicate 31 0 ++ [1], List.replicate 31 0 ++ [2]]

/-! ## Theorems -/

/-- C2: the `Sha256` hasher — `init`, `update` over the message, `finish` —
maps the empty message to
`e3b0c44298fc1c149afbf4c8996fb92427ae41e4649b934ca495991b7852b855` and the
three-byte message `"abc"` (bytes 97, 98, 99) to
`ba7816bf8f01cfea414140de5dae2223b00361a396177a9cb410ff61f20015ad`. -/
theorem c2_sha256_known_answers :
    sha256 [] =
      [227, 176, 196, 66, 152, 252, 28, 20, 154, 251, 244, 200, 153, 111, 185, 36,
       39, 174, 65, 228, 100, 155, 147, 76, 164, 149, 153, 27, 120, 82, 184, 85] ∧
    sha256 [97, 98, 99] =
      [186, 120, 22, 191, 143, 1, 207, 234, 65, 65, 64, 222, 93, 174, 34, 35,
       176, 3, 97, 163, 150, 23, 122, 156, 180, 16, 255, 97, 242, 0, 21, 173] :=
  ⟨by decide, by decide⟩

/-- C4: the claim says `append(data)` with `data.len() == DATALEN` writes the
block, flushes, returns `Ok(())` and updates the register to the hash of the
new block.  In the code the register update hashes `&data[0..block_size]`
where `block_size = DIGEST_SIZE + DATA_SIZE > data.len()`, an out-of-range
slice: every `append` with a correctly-sized data slice panics instead of
returning `Ok`. -/
theorem c4_append_panics (σ : Type) (M : HasherModel σ) (MDLEN DATALEN : Nat)
    (w : WriterSt) (data : List Nat) (hM : 0 < MDLEN) (hd : data.length = DATALEN) :
    writerAppend MDLEN DATALEN M w data = .panicked := by
  have hne : ¬ (MDLEN + DATALEN ≤ data.length) := by omega
  have h0 : ¬ MDLEN = 0 := by omega
  simp [writerAppend, sliceRange, hd, hne, h0]

/-- Witness for `c4_append_panics` at `MDLEN = 32`, `DATALEN = 11`, data
`[5, 5, ..., 5]`. -/
theorem c4_append_panics_witness :
    0 < 32 ∧ (List.replicate 11 5).length = 11 ∧
      writerAppend 32 11 sha256Model ⟨[], List.replicate 32 0⟩ (List.replicate 11 5) =
        .panicked :=
  ⟨by decide, by decide,
    c4_append_panics Sha2Ctx sha256Model 32 11 ⟨[], List.replicate 32 0⟩
      (List.replicate 11 5) (by decide) (by decide)⟩

/-- C8: the claim says `Writer::new` on a path that does not refer to an
existing file creates the file empty and returns `Ok`.  The code checks
`!path.is_file()` first, and `is_file()` is false for a non-existent path, so
`Writer::new` returns `Err(PathIsNotAFile)` and the `create_new(true)` branch
is unreachable. -/
theorem c8_writer_new_rejects_fresh_path (σ : Type) (M : HasherModel σ)
    (MDLEN DATALEN : Nat) (p : PathModel) (_hx : p.pexists = false)
    (hf : p.isFile = false) :
    writerNew MDLEN DATALEN M p = .error .PathIsNotAFile := by
  simp [writerNew, hf]

/-- Witness for `c8_writer_new_rejects_fresh_path` on a concrete non-existent
path. -/
theorem c8_writer_new_rejects_fresh_path_witness :
    (PathModel.mk false false []).pexists = false ∧
    (PathModel.mk false false []).isFile = false ∧
      writerNew 32 11 sha256Model ⟨false, false, []⟩ = .error .PathIsNotAFile :=
  ⟨rfl, rfl,
    c8_writer_new_rejects_fresh_path Sha2Ctx sha256Model 32 11 ⟨false, false, []⟩ rfl rfl⟩

/-- C7 (counterexample): the claim says that after `seek(i)` on a block
stream, `stream_position()` returns the block index `i` and not the byte
offset.  On a two-block stream with block size 43 (`MDLEN = 32`,
`DATALEN = 11`), seeking to block 1 makes `stream_position()` return the byte
offset 43, not the index 1. -/
theorem c7_stream_position_counterexample :
    blockCount 43 (List.replicate 86 0) = .ok 2 ∧ (1 : Nat) < 2 ∧
      (readerSeek 32 11 ⟨List.replicate 86 0, 0⟩ 1).toOption.map
        (fun p => readerStreamPosition 32 11 p.1) = some (.ok 43) ∧
      (43 : Nat) ≠ 1 := by
  refine ⟨by decide, by decide, by decide, by decide⟩

/-- C7 (amended): after `seek(i)` — whose byte offset `i·B` is computed with
an overflow check yielding `IntegerOverflow` on wrap — `stream_position()`
returns `Ok` with the *byte offset* `i·B` (a multiple of the block size), and
`stream_position` fails with `BadStreamPosition` exactly when the underlying
byte position is not a multiple of the block size. -/
theorem c7_seek_stream_position (MDLEN DATALEN : Nat) (r : ReaderSt) (i : Nat) :
    (i * (MDLEN + DATALEN) < 2 ^ 64 →
      readerSeek MDLEN DATALEN r i =
        .ok (⟨r.file, i * (MDLEN + DATALEN)⟩, i * (MDLEN + DATALEN)) ∧
      readerStreamPosition MDLEN DATALEN ⟨r.file, i * (MDLEN + DATALEN)⟩ =
        .ok (i * (MDLEN + DATALEN))) ∧
    (2 ^ 64 ≤ i * (MDLEN + DATALEN) →
      readerSeek MDLEN DATALEN r i = .error .IntegerOverflow) ∧
    (readerStreamPosition MDLEN DATALEN r = .error (.BadStreamPosition r.pos) ↔
      r.pos % (MDLEN + DATALEN) ≠ 0) := by
  refine ⟨fun h => ?_, fun h => ?_, ?_⟩
  · constructor
    · simp only [readerSeek]
      rw [if_neg (not_le.mpr h)]
    · simp [readerStreamPosition, Nat.mul_mod_left]
  · simp only [readerSeek]
    rw [if_pos h]
  · by_cases hp : r.pos % (MDLEN + DATALEN) = 0
    · simp [readerStreamPosition, hp]
    · simp [readerStreamPosition, hp]

/-- Witness for `c7_seek_stream_position` at `MDLEN = 32`, `DATALEN = 11`,
block index 1. -/
theorem c7_seek_stream_position_witness :
    1 * (32 + 11) < 2 ^ 64 ∧
      readerSeek 32 11 ⟨List.replicate 86 0, 0⟩ 1 =
        .ok (⟨List.replicate 86 0, 1 * (32 + 11)⟩, 1 * (32 + 11)) :=
  ⟨by decide,
    ((c7_seek_stream_position 32 11 ⟨List.replicate 86 0, 0⟩ 1).1 (by decide)).1⟩

/-- C5: for a Reader over a valid chained file (`count` blocks of
`MDLEN + DATALEN` bytes, non-empty, sizes within `u64`):
`validate_block_at(0)` is `Ok`; any `index ≥ block_count` yields
`BlockNumDoesNotExist`; any other index hashes all bytes of block `index - 1`
with a fresh hasher and returns `InvalidBlockHash(index)` exactly when the
first `MDLEN` bytes of block `index` differ from that hash, `Ok` otherwise. -/
theorem c5_validate_block_at (σ : Type) (M : HasherModel σ) (MDLEN DATALEN : Nat)
    (file : List Nat) (count : Nat) (hbs : 0 < MDLEN + DATALEN)
    (hlen : file.length = count * (MDLEN + DATALEN)) (hc : 0 < count)
    (hov : file.length < 2 ^ 64) :
    validateBlockAt MDLEN DATALEN M file 0 = .ok () ∧
    (∀ i, count ≤ i →
      validateBlockAt MDLEN DATALEN M file i = .error .BlockNumDoesNotExist) ∧
    (∀ i, 0 < i → i < count →
      validateBlockAt MDLEN DATALEN M file i =
        if (file.drop (i * (MDLEN + DATALEN))).take MDLEN ≠
            (M.finish (M.update M.init
              ((file.drop ((i - 1) * (MDLEN + DATALEN))).take (MDLEN + DATALEN)))).2
        then .error (.InvalidBlockHash i) else .ok ()) := by
  have hne : file.length ≠ 0 := by
    rw [hlen]
    exact Nat.ne_of_gt (Nat.mul_pos hc hbs)
  have hbc : blockCount (MDLEN + DATALEN) file = .ok count := by
    unfold blockCount
    rw [if_neg hne, if_neg (by rw [hlen]; simp [Nat.mul_mod_left]), hlen,
      Nat.mul_div_cancel count hbs]
  refine ⟨?_, fun i hi => ?_, fun i hipos hilt => ?_⟩
  · simp only [validateBlockAt, hbc]
    rw [if_neg (by omega)]
    simp
  · simp only [validateBlockAt, hbc]
    rw [if_pos hi]
  · obtain ⟨j, rfl⟩ : ∃ j, i = j + 1 := ⟨i - 1, by omega⟩
    have h1 : j * (MDLEN + DATALEN) + (MDLEN + DATALEN) ≤ file.length := by
      rw [hlen]
      calc j * (MDLEN + DATALEN) + (MDLEN + DATALEN) = (j + 1) * (MDLEN + DATALEN) := by ring
        _ ≤ count * (MDLEN + DATALEN) := Nat.mul_le_mul_right _ (by omega)
    have h2 : j * (MDLEN + DATALEN) + (MDLEN + DATALEN) + MDLEN ≤ file.length := by
      rw [hlen]
      calc j * (MDLEN + DATALEN) + (MDLEN + DATALEN) + MDLEN
          ≤ j * (MDLEN + DATALEN) + (MDLEN + DATALEN) + (MDLEN + DATALEN) :=
            Nat.add_le_add_left (Nat.le_add_right _ _) _
        _ = (j + 2) * (MDLEN + DATALEN) := by ring
        _ ≤ count * (MDLEN + DATALEN) := Nat.mul_le_mul_right _ (by omega)
    have hovm : ¬ (2 ^ 64 ≤ (j + 1 - 1) * (MDLEN + DATALEN)) := by
      simp only [Nat.add_sub_cancel]
      have : j * (MDLEN + DATALEN) ≤ file.length := le_trans (Nat.le_add_right _ _) h1
      omega
    simp only [validateBlockAt, hbc]
    rw [if_neg (not_le.mpr hilt), if_neg (by omega : ¬ j + 1 = 0), if_neg hovm]
    simp only [Nat.add_sub_cancel]
    rw [readExact, if_pos h1]
    rw [readExact, if_pos h2]
    have hpos : j * (MDLEN + DATALEN) + (MDLEN + DATALEN) = (j + 1) * (MDLEN + DATALEN) := by
      ring
    rw [hpos]

/-- Witness for `c5_validate_block_at`: a two-block file with `MDLEN = 1`,
`DATALEN = 1` and a toy one-byte hasher whose digest is always `[7]`; block 1
carries the matching header `7`. -/
theorem c5_validate_block_at_witness :
    0 < 1 + 1 ∧ ([9, 9, 7, 9] : List Nat).length = 2 * (1 + 1) ∧ 0 < 2 ∧
      ([9, 9, 7, 9] : List Nat).length < 2 ^ 64 ∧
      validateBlockAt 1 1 unitHasher [9, 9, 7, 9] 0 = .ok () ∧
      validateBlockAt 1 1 unitHasher [9, 9, 7, 9] 5 = .error .BlockNumDoesNotExist := by
  have h := c5_validate_block_at Unit unitHasher 1 1 [9, 9, 7, 9] 2 (by decide) (by decide)
    (by decide) (by decide)
  exact ⟨by decide, by decide, by decide, by decide, h.1, h.2.1 5 (by decide)⟩

/-- The flag that the level loop of `compute_root` / `compute_proof`
accumulates: the OR, over the levels, of the adjacent-pair scans of the
*pre-duplication* level lists (the hasher / next level advance exactly as in
`computeRootGo`). -/
def levelScanGo (M : HasherModel σ) : Nat → σ → List (List Nat) → Bool
  | 0, _, _ => false
  | fuel + 1, h, l =>
    if l.length ≤ 1 then false
    else
      match duplicateLast l with
      | .error _ => false
      | .ok l1 =>
        let hp := hashPairs M h l1
        scanAdj l || levelScanGo M fuel hp.1 hp.2

/-- `duplicateLast` never fails on a non-empty list. -/
theorem duplicateLast_ok (l : List (List Nat)) (h : l ≠ []) :
    duplicateLast l = .ok (if l.length % 2 = 1 then l ++ [l.getLast h] else l) := by
  unfold duplicateLast
  by_cases hp : l.length % 2 = 1
  · rw [if_pos hp, if_pos hp, List.getLast?_eq_getLast _ h]
  · rw [if_neg hp, if_neg hp]

/-- Every run of the `compute_root` loop ends in `.ok`, and the returned flag
is the accumulated OR of the pre-duplication level scans. -/
theorem computeRootGo_ok (M : HasherModel σ) :
    ∀ (fuel : Nat) (h : σ) (mu : Bool) (l : List (List Nat)),
      ∃ r, computeRootGo M fuel h mu l = .ok (r, mu || levelScanGo M fuel h l) := by
  intro fuel
  induction fuel with
  | zero => intro h mu l; exact ⟨l, by simp [computeRootGo, levelScanGo]⟩
  | succ fuel ih =>
    intro h mu l
    by_cases hl : l.length ≤ 1
    · exact ⟨l, by simp [computeRootGo, levelScanGo, hl]⟩
    · have hne : l ≠ [] := by
        intro hc; rw [hc] at hl; simp at hl
      obtain ⟨r, hr⟩ := ih (hashPairs M h (if l.length % 2 = 1 then l ++ [l.getLast hne] else l)).1
        (mu || scanAdj l)
        (hashPairs M h (if l.length % 2 = 1 then l ++ [l.getLast hne] else l)).2
      refine ⟨r, ?_⟩
      simp only [computeRootGo, levelScanGo, if_neg hl, duplicateLast_ok l hne, hr]
      rw [Bool.or_assoc]

/-- Every run of the `compute_proof` loop also ends in `.ok`, with the same
flag as `compute_root` (the proof-node pushes do not touch it). -/
theorem computeProofGo_ok (M : HasherModel σ) :
    ∀ (fuel : Nat) (h : σ) (mu : Bool) (proof : List ChildNode) (index : Nat)
      (l : List (List Nat)),
      ∃ pr, computeProofGo M fuel h mu proof index l =
        .ok (pr, mu || levelScanGo M fuel h l) := by
  intro fuel
  induction fuel with
  | zero => intro h mu proof index l; exact ⟨proof, by simp [computeProofGo, levelScanGo]⟩
  | succ fuel ih =>
    intro h mu proof index l
    by_cases hl : l.length ≤ 1
    · exact ⟨proof, by simp [computeProofGo, levelScanGo, hl]⟩
    · have hne : l ≠ [] := by
        intro hc; rw [hc] at hl; simp at hl
      set l1 := if l.length % 2 = 1 then l ++ [l.getLast hne] else l with hl1
      obtain ⟨pr, hpr⟩ := ih (hashPairs M h l1).1 (mu || scanAdj l)
        (proof ++ [if index % 2 = 1 then ChildNode.left (l1.getD (index ^^^ 1) [])
                   else ChildNode.right (l1.getD (index ^^^ 1) [])])
        (index / 2) (hashPairs M h l1).2
      refine ⟨pr, ?_⟩
      simp only [computeProofGo, levelScanGo, if_neg hl, duplicateLast_ok l hne, ← hl1, hpr]
      rw [Bool.or_assoc]

/-- C10: `compute_root` applied to an empty leaf vector returns `Ok` with the
flag `false` and the vector untouched, and the `InvalidMerkleLeaves` branch is
unreachable: on every input vector the function returns `Ok`. -/
theorem c10_compute_root_total :
    (∀ (σ : Type) (M : HasherModel σ), computeRoot M ([] : List (List Nat)) = .ok ([], false)) ∧
    (∀ (σ : Type) (M : HasherModel σ) (l : List (List Nat)),
      ∃ r b, computeRoot M l = .ok (r, b)) := by
  refine ⟨fun σ M => rfl, fun σ M l => ?_⟩
  obtain ⟨r, hr⟩ := computeRootGo_ok M l.length M.init false l
  exact ⟨r, _, hr⟩

/-- C9 (counterexample): the claim says that a level of pairwise-distinct
leaves with odd length greater than one still sets the mutation flag via the
duplicated pair.  For the three pairwise-distinct leaves `leavesABC` (odd
length 3) `compute_root` returns the flag `false`. -/
theorem c9_mutation_flag_counterexample :
    leavesABC.Nodup ∧ leavesABC.length % 2 = 1 ∧ 1 < leavesABC.length ∧
      (computeRoot sha256Model leavesABC).toOption.map (fun rm => rm.2) = some false :=
  ⟨by decide, by decide, by decide, by decide⟩

/-- C9 (amended): at every reduction level of `compute_root` and
`compute_proof` the adjacent-pair equality scan runs FIRST, over the
unextended level, and the last leaf is duplicated afterwards when the length
is odd, so the duplicated adjacent pair never sets the flag: the returned
flag equals the OR of the pre-duplication level scans (`levelScanGo`), and it
is returned inside `Ok`, never as an error. -/
theorem c9_mutation_flag_amended (σ : Type) (M : HasherModel σ) (l : List (List Nat)) :
    (∃ r, computeRoot M l = .ok (r, levelScanGo M l.length M.init l)) ∧
    (∀ index, index < l.length →
      ∃ pr, computeProof M l index = .ok (pr, levelScanGo M l.length M.init l)) := by
  constructor
  · obtain ⟨r, hr⟩ := computeRootGo_ok M l.length M.init false l
    exact ⟨r, by rw [computeRoot, hr, Bool.false_or]⟩
  · intro index hidx
    obtain ⟨pr, hpr⟩ := computeProofGo_ok M l.length M.init false [] index l
    exact ⟨pr, by rw [computeProof, if_neg (not_le.mpr hidx), hpr, Bool.false_or]⟩

/-- Witness for `c9_mutation_flag_amended` at the concrete leaves and
index 0. -/
theorem c9_mutation_flag_amended_witness :
    0 < leavesABC.length ∧
      (∃ pr, computeProof sha256Model leavesABC 0 =
        .ok (pr, levelScanGo sha256Model leavesABC.length sha256Model.init leavesABC)) :=
  ⟨by decide,
    (c9_mutation_flag_amended Sha2Ctx sha256Model leavesABC).2 0 (by decide)⟩

/-- One byte of absorption, the byte-level view of `transform!`: append the
byte to the residual buffer and compress when it fills.  `sha2UpdateGo_eq_foldl`
identifies the slice-copying loop of the source with the left fold of this
step. -/
def sha2PutByte (chunkLen : Nat) (compress : List Nat → List Nat → List Nat)
    (s : Sha2Ctx) (b : Nat) : Sha2Ctx :=
  let buf := s.buf ++ [b]
  if buf.length = chunkLen then ⟨compress s.st buf, [], s.len + 1⟩
  else ⟨s.st, buf, s.len + 1⟩

/-- Folding `sha2PutByte` over a non-empty data slice that fits in the
remaining buffer space appends it wholesale, compressing exactly when the
buffer fills on the last byte. -/
theorem foldl_putByte_fill (cl : Nat) (cp : List Nat → List Nat → List Nat) :
    ∀ (data : List Nat) (s : Sha2Ctx), data ≠ [] → s.buf.length + data.length ≤ cl →
      List.foldl (sha2PutByte cl cp) s data =
        if s.buf.length + data.length = cl then
          ⟨cp s.st (s.buf ++ data), [], s.len + data.length⟩
        else ⟨s.st, s.buf ++ data, s.len + data.length⟩ := by
  intro data
  induction data with
  | nil => intro s h _; exact absurd rfl h
  | cons b rest ih =>
    intro s _ hle
    simp only [List.length_cons] at hle
    match rest with
    | [] =>
      simp only [List.foldl, sha2PutByte]
      by_cases hc : s.buf.length + 1 = cl
      · rw [if_pos (by simp only [List.length_append, List.length_cons, List.length_nil]; omega),
          if_pos (by simp only [List.length_cons, List.length_nil]; omega)]
        simp
      · rw [if_neg (by simp only [List.length_append, List.length_cons, List.length_nil]; omega),
          if_neg (by simp only [List.length_cons, List.length_nil]; omega)]
        simp
    | b2 :: rest2 =>
      simp only [List.length_cons] at hle
      have hlt : s.buf.length + 1 < cl := by omega
      have hstep : sha2PutByte cl cp s b = ⟨s.st, s.buf ++ [b], s.len + 1⟩ := by
        simp only [sha2PutByte]
        rw [if_neg (by simp only [List.length_append, List.length_cons, List.length_nil]; omega)]
      rw [List.foldl_cons, hstep,
        ih ⟨s.st, s.buf ++ [b], s.len + 1⟩ (by simp)
          (by simp only [List.length_append, List.length_cons, List.length_nil]; omega)]
      have hbufeq : (s.buf ++ [b]) ++ b2 :: rest2 = s.buf ++ b :: b2 :: rest2 := by simp
      have hcond : (s.buf ++ [b]).length + (b2 :: rest2).length = cl ↔
          s.buf.length + (b :: b2 :: rest2).length = cl := by
        simp only [List.length_append, List.length_cons, List.length_nil]
        omega
      have hleneq : s.len + 1 + (b2 :: rest2).length = s.len + (b :: b2 :: rest2).length := by
        simp only [List.length_cons]
        omega
      by_cases hc : s.buf.length + (b :: b2 :: rest2).length = cl
      · rw [if_pos (hcond.mpr hc), if_pos hc, hbufeq, hleneq]
      · rw [if_neg (fun hx => hc (hcond.mp hx)), if_neg hc, hbufeq, hleneq]

/-- The `transform!` loop equals the byte-level fold whenever the residual
buffer invariant `msg_num < chunkLen` holds and the fuel covers the data (the
source maintains the invariant, and `2 * data.length + 1` fuel is ample). -/
theorem sha2UpdateGo_eq_foldl (cl : Nat) (cp : List Nat → List Nat → List Nat) :
    ∀ (fuel : Nat) (s : Sha2Ctx) (data : List Nat), data.length ≤ fuel →
      s.buf.length < cl →
      sha2UpdateGo cl cp fuel s data = List.foldl (sha2PutByte cl cp) s data := by
  intro fuel
  induction fuel with
  | zero =>
    intro s data hf _
    have : data = [] := List.eq_nil_of_length_eq_zero (by omega)
    subst this
    rfl
  | succ fuel ih =>
    intro s data hf hbuf
    by_cases hd : data.length = 0
    · have : data = [] := List.eq_nil_of_length_eq_zero hd
      subst this
      simp [sha2UpdateGo]
    · simp only [sha2UpdateGo]
      rw [if_neg hd]
      obtain ⟨m, hm⟩ : ∃ m, min data.length (cl - s.buf.length) = m := ⟨_, rfl⟩
      rw [hm]
      have hm1 : 1 ≤ m := by
        rw [← hm]
        exact Nat.le_min.mpr ⟨by omega, by omega⟩
      have hmle : m ≤ data.length := by
        rw [← hm]
        exact Nat.min_le_left _ _
      have hmcl : s.buf.length + m ≤ cl := by
        have h2 := Nat.min_le_right data.length (cl - s.buf.length)
        rw [hm] at h2
        omega
      have hlen_take : (data.take m).length = m := by
        rw [List.length_take]
        omega
      have htake_ne : data.take m ≠ [] := by
        intro hcon
        have h2 := congrArg List.length hcon
        rw [hlen_take] at h2
        simp at h2
        omega
      have hfill := foldl_putByte_fill cl cp (data.take m) s htake_ne
        (by rw [hlen_take]; exact hmcl)
      rw [hlen_take] at hfill
      conv_rhs => rw [← List.take_append_drop m data, List.foldl_append, hfill]
      have hdrop : (data.drop m).length ≤ fuel := by
        rw [List.length_drop]
        omega
      have hcond : (s.buf ++ data.take m).length = cl ↔ s.buf.length + m = cl := by
        rw [List.length_append, hlen_take]
      by_cases hcomp : s.buf.length + m = cl
      · rw [if_pos (hcond.mpr hcomp), if_pos hcomp]
        exact ih _ _ hdrop (by simp only [List.length_nil]; omega)
      · rw [if_neg (fun hx => hcomp (hcond.mp hx)), if_neg hcomp]
        refine ih _ _ hdrop ?_
        simp only [List.length_append, hlen_take]
        omega

/-- `update` (the `transform!` macro) equals the byte-level fold under the
buffer invariant. -/
theorem sha2Update_eq_foldl (cl : Nat) (cp : List Nat → List Nat → List Nat)
    (s : Sha2Ctx) (data : List Nat) (hbuf : s.buf.length < cl) :
    sha2Update cl cp s data = List.foldl (sha2PutByte cl cp) s data :=
  sha2UpdateGo_eq_foldl cl cp (2 * data.length + 1) s data (by omega) hbuf

/-- One absorbed byte keeps the residual buffer strictly below the chunk
size. -/
theorem sha2PutByte_buf_lt (cl : Nat) (cp : List Nat → List Nat → List Nat)
    (s : Sha2Ctx) (b : Nat) (hbuf : s.buf.length < cl) :
    (sha2PutByte cl cp s b).buf.length < cl := by
  simp only [sha2PutByte]
  by_cases hc : (s.buf ++ [b]).length = cl
  · rw [if_pos hc]
    simpa using Nat.lt_of_le_of_lt (Nat.zero_le _) hbuf
  · rw [if_neg hc]
    simp only [List.length_append, List.length_singleton]
    simp only [List.length_append, List.length_singleton] at hc
    omega

/-- The byte-level fold preserves the buffer invariant. -/
theorem foldl_putByte_buf_lt (cl : Nat) (cp : List Nat → List Nat → List Nat) :
    ∀ (data : List Nat) (s : Sha2Ctx), s.buf.length < cl →
      (List.foldl (sha2PutByte cl cp) s data).buf.length < cl := by
  intro data
  induction data with
  | nil => intro s h; exact h
  | cons b rest ih =>
    intro s h
    exact ih _ (sha2PutByte_buf_lt cl cp s b h)

/-- `update` preserves the buffer invariant. -/
theorem sha2Update_buf_lt (cl : Nat) (cp : List Nat → List Nat → List Nat)
    (s : Sha2Ctx) (data : List Nat) (hbuf : s.buf.length < cl) :
    (sha2Update cl cp s data).buf.length < cl := by
  rw [sha2Update_eq_foldl cl cp s data hbuf]
  exact foldl_putByte_buf_lt cl cp data s hbuf

/-- `update(a); update(b)` equals `update(a ++ b)` under the buffer
invariant. -/
theorem sha2Update_append (cl : Nat) (cp : List Nat → List Nat → List Nat)
    (s : Sha2Ctx) (p q : List Nat) (hbuf : s.buf.length < cl) :
    sha2Update cl cp s (p ++ q) = sha2Update cl cp (sha2Update cl cp s p) q := by
  rw [sha2Update_eq_foldl cl cp _ q (sha2Update_buf_lt cl cp s p hbuf),
    sha2Update_eq_foldl cl cp s (p ++ q) hbuf, sha2Update_eq_foldl cl cp s p hbuf,
    List.foldl_append]

/-- `update` of a zero-length slice is the identity (the `transform!` loop
body never runs). -/
theorem sha2Update_nil (cl : Nat) (cp : List Nat → List Nat → List Nat) (s : Sha2Ctx) :
    sha2Update cl cp s [] = s := rfl

/-- `Context::update` of `sha3.rs` on a zero-length slice is the identity. -/
theorem sha3Update_nil (perm : List Nat → List Nat) (t : Sha3Ctx) :
    sha3Update perm t [] = t := rfl

/-- C1: for every SHA-2 algorithm (any chunk length with its compression
function — 64 for the 256 family, 128 for the 512 family) and every SHA-3 /
SHAKE algorithm (any rate, any permutation), splitting a message into
consecutive pieces and calling `update` on each piece in order produces the
same context — hence, `finish` being a function of the context, the same
digest — as a single `update` of the whole message; and `update` of a
zero-length slice leaves the context unchanged.  The SHA-2 statement holds
from any context satisfying the residual-buffer invariant `msg_num <
chunkLen`, in particular from `init` (`msg_num = 0`). -/
theorem c1_update_chunking :
    (∀ (chunkLen : Nat) (compress : List Nat → List Nat → List Nat) (s : Sha2Ctx)
        (pieces : List (List Nat)), s.buf.length < chunkLen →
      List.foldl (sha2Update chunkLen compress) s pieces =
        sha2Update chunkLen compress s pieces.flatten ∧
      sha2Update chunkLen compress s [] = s) ∧
    (∀ (perm : List Nat → List Nat) (t : Sha3Ctx) (pieces : List (List Nat)),
      List.foldl (sha3Update perm) t pieces = sha3Update perm t pieces.flatten ∧
      sha3Update perm t [] = t) ∧
    (∀ pieces : List (List Nat),
      sha256Finish (List.foldl sha256Update sha256Init pieces) =
        sha256Finish (sha256Update sha256Init pieces.flatten)) ∧
    (∀ (B D : Nat) (pieces : List (List Nat)),
      sha3Finish D (List.foldl (sha3Update keccakf) (sha3Init B) pieces) =
        sha3Finish D (sha3Update keccakf (sha3Init B) pieces.flatten)) := by
  have hsha2 : ∀ (chunkLen : Nat) (compress : List Nat → List Nat → List Nat)
      (pieces : List (List Nat)) (s : Sha2Ctx), s.buf.length < chunkLen →
      List.foldl (sha2Update chunkLen compress) s pieces =
        sha2Update chunkLen compress s pieces.flatten := by
    intro cl cp pieces
    induction pieces with
    | nil => intro s _; exact (sha2Update_nil cl cp s).symm
    | cons p ps ih =>
      intro s hbuf
      rw [List.foldl_cons, ih _ (sha2Update_buf_lt cl cp s p hbuf), List.flatten_cons,
        sha2Update_append cl cp s p ps.flatten hbuf]
  have hsha3 : ∀ (perm : List Nat → List Nat) (pieces : List (List Nat)) (t : Sha3Ctx),
      List.foldl (sha3Update perm) t pieces = sha3Update perm t pieces.flatten := by
    intro perm pieces
    induction pieces with
    | nil => intro t; rfl
    | cons p ps ih =>
      intro t
      rw [List.foldl_cons, ih, List.flatten_cons]
      simp only [sha3Update]
      rw [List.foldl_append]
  refine ⟨fun cl cp s pieces hbuf => ⟨hsha2 cl cp pieces s hbuf, sha2Update_nil cl cp s⟩,
    fun perm t pieces => ⟨hsha3 perm pieces t, sha3Update_nil perm t⟩,
    fun pieces => ?_, fun B D pieces => ?_⟩
  · rw [show List.foldl sha256Update sha256Init pieces =
      List.foldl (sha2Update 64 sha256Compress) sha256Init pieces from rfl,
      hsha2 64 sha256Compress pieces sha256Init (by simp [sha256Init])]
    rfl
  · rw [hsha3 keccakf pieces (sha3Init B)]

/-- Every nibble renders to a decimal-digit or `a`-`f` code point. -/
theorem hexChar_range (x : Nat) (h : x < 16) :
    (48 ≤ hexChar x ∧ hexChar x ≤ 57) ∨ (97 ≤ hexChar x ∧ hexChar x ≤ 102) := by
  unfold hexChar
  by_cases hx : x < 10
  · rw [if_pos hx]; left; omega
  · rw [if_neg hx]; right; omega

/-- `to_digit(16)` inverts `hexChar` on nibbles. -/
theorem hexDigitVal_hexChar (x : Nat) (h : x < 16) : hexDigitVal (hexChar x) = some x := by
  unfold hexChar hexDigitVal
  by_cases hx : x < 10
  · rw [if_pos hx, if_pos ⟨by omega, by omega⟩]
    congr 1
    omega
  · rw [if_neg hx, if_neg (by omega), if_pos ⟨by omega, by omega⟩]
    congr 1
    omega

/-- Every character of a digest rendering is a lowercase hex digit code
point. -/
theorem mem_digestToHex (d : List Nat) (hb : ∀ b ∈ d, b < 256) (c : Nat)
    (hc : c ∈ digestToHex d) :
    (48 ≤ c ∧ c ≤ 57) ∨ (97 ≤ c ∧ c ≤ 102) := by
  unfold digestToHex at hc
  rw [List.mem_flatten] at hc
  obtain ⟨l, hl, hcl⟩ := hc
  rw [List.mem_map] at hl
  obtain ⟨b, hbd, rfl⟩ := hl
  have hblt := hb b hbd
  unfold byteToHex at hcl
  simp only [List.mem_cons, List.not_mem_nil, or_false] at hcl
  rcases hcl with rfl | rfl
  · exact hexChar_range _ (by omega)
  · exact hexChar_range _ (by omega)

/-- Rendering characters are not whitespace, are fixed by lowercasing, and
are not `x`, `+` or `-`. -/
theorem digestToHex_char_facts (d : List Nat) (hb : ∀ b ∈ d, b < 256) :
    ∀ c ∈ digestToHex d,
      isWs c = false ∧ toAsciiLower c = c ∧ c ≠ 120 ∧ c ≠ 43 ∧ c ≠ 45 := by
  intro c hc
  have h := mem_digestToHex d hb c hc
  refine ⟨?_, ?_, by omega, by omega, by omega⟩
  · have : ¬ c ∈ wsCodes := by
      intro hmem
      simp only [wsCodes, List.mem_cons, List.not_mem_nil, or_false] at hmem
      omega
    simpa [isWs] using this
  · unfold toAsciiLower
    rw [if_neg (by omega)]

/-- Lowercasing fixes whitespace code points. -/
theorem toAsciiLower_ws (c : Nat) (h : isWs c = true) : toAsciiLower c = c := by
  have hm : c ∈ wsCodes := by simpa [isWs] using h
  simp only [wsCodes, List.mem_cons, List.not_mem_nil, or_false] at hm
  unfold toAsciiLower
  rw [if_neg (by omega)]

/-- `from_str_radix(16)` round-trips one rendered byte. -/
theorem fromStrRadix_byteToHex (b : Nat) (hb : b < 256) :
    fromStrRadix16u8 (byteToHex b) = .ok b := by
  have h1 := hexChar_range (b / 16) (by omega)
  have hv1 := hexDigitVal_hexChar (b / 16) (by omega)
  have hv2 := hexDigitVal_hexChar (b % 16) (by omega)
  unfold byteToHex
  simp only [fromStrRadix16u8]
  rw [if_neg (by omega), if_neg (by omega)]
  unfold parseHexDigits
  rw [if_neg (by simp)]
  simp only [hexDigitsVals, hv1, hv2, List.foldl]
  rw [if_neg (by omega)]
  congr 1
  omega

/-- The parsing loop round-trips the rendering of a whole digest. -/
theorem parsePairs_digestToHex (d : List Nat) (hb : ∀ b ∈ d, b < 256) :
    parsePairs (digestToHex d) = .ok d := by
  induction d with
  | nil => rfl
  | cons b rest ih =>
    have hb1 : b < 256 := hb b (List.mem_cons_self b rest)
    have hbr : ∀ x ∈ rest, x < 256 := fun x hx => hb x (List.mem_cons_of_mem _ hx)
    have hsplit : digestToHex (b :: rest) =
        hexChar (b / 16) :: hexChar (b % 16) :: digestToHex rest := by
      simp [digestToHex, byteToHex]
    have hfr : fromStrRadix16u8 [hexChar (b / 16), hexChar (b % 16)] = .ok b := by
      simpa [byteToHex] using fromStrRadix_byteToHex b hb1
    rw [hsplit]
    simp only [parsePairs, hfr, ih hbr]

/-- `dropWhile` skips a prefix of satisfying elements. -/
theorem dropWhile_append_all (p : Nat → Bool) (xs ys : List Nat)
    (h : ∀ c ∈ xs, p c = true) :
    List.dropWhile p (xs ++ ys) = List.dropWhile p ys := by
  induction xs with
  | nil => rfl
  | cons x xs ih =>
    rw [List.cons_append, List.dropWhile_cons, if_pos (h x (List.mem_cons_self x xs))]
    exact ih (fun c hc => h c (List.mem_cons_of_mem _ hc))

/-- `dropWhile` consumes a list of satisfying elements entirely. -/
theorem dropWhile_all_pos (p : Nat → Bool) (l : List Nat) (h : ∀ c ∈ l, p c = true) :
    List.dropWhile p l = [] := by
  have := dropWhile_append_all p l [] h
  simpa using this

/-- `dropWhile` keeps a list with no satisfying element. -/
theorem dropWhile_all_neg (p : Nat → Bool) (l : List Nat) (h : ∀ c ∈ l, p c = false) :
    List.dropWhile p l = l := by
  cases l with
  | nil => rfl
  | cons x xs =>
    rw [List.dropWhile_cons, if_neg (by simp [h x (List.mem_cons_self x xs)])]

/-- `str::trim` removes exactly the surrounding whitespace around a
whitespace-free core. -/
theorem trim_sandwich (ws1 mid ws2 : List Nat) (h1 : ∀ c ∈ ws1, isWs c = true)
    (h2 : ∀ c ∈ ws2, isWs c = true) (hm : ∀ c ∈ mid, isWs c = false) :
    trimStr (ws1 ++ mid ++ ws2) = mid := by
  unfold trimStr
  rw [List.append_assoc, dropWhile_append_all _ ws1 _ h1]
  cases mid with
  | nil =>
    rw [List.nil_append, dropWhile_all_pos _ ws2 h2]
    rfl
  | cons m0 mrest =>
    rw [List.cons_append, List.dropWhile_cons,
      if_neg (by simp [hm m0 (List.mem_cons_self m0 mrest)]), ← List.cons_append,
      List.reverse_append,
      dropWhile_append_all _ ws2.reverse _ (fun c hc => h2 c (List.mem_reverse.mp hc)),
      dropWhile_all_neg _ _ (fun c hc => hm c (List.mem_reverse.mp hc)),
      List.reverse_reverse]

/-- `str::trim` fixes a whitespace-free string. -/
theorem trim_of_no_ws (l : List Nat) (h : ∀ c ∈ l, isWs c = false) : trimStr l = l := by
  have := trim_sandwich [] l [] (by simp) (by simp) h
  simpa using this

/-- The rendering never starts with `"0x"` (its second character is at most
`f` = 102 < `x` = 120), so the prefix strip is the identity on it. -/
theorem stripPrefix0x_digestToHex (d : List Nat) (hb : ∀ b ∈ d, b < 256) :
    stripPrefix0x (digestToHex d) = digestToHex d := by
  cases d with
  | nil => rfl
  | cons b rest =>
    have hb1 : b < 256 := hb b (List.mem_cons_self b rest)
    have h2 := hexChar_range (b % 16) (by omega)
    have hco : digestToHex (b :: rest) =
        hexChar (b / 16) :: hexChar (b % 16) :: digestToHex rest := by
      simp [digestToHex, byteToHex]
    rw [hco]
    simp only [stripPrefix0x]
    rw [if_neg (fun hx => by omega)]

/-- The rendering is two characters per byte. -/
theorem digestToHex_length (d : List Nat) : (digestToHex d).length = 2 * d.length := by
  induction d with
  | nil => rfl
  | cons b rest ih =>
    unfold digestToHex at ih ⊢
    simp only [List.map_cons, List.flatten_cons, List.length_append, byteToHex,
      List.length_cons, List.length_nil]
    omega

/-- Parsing the rendering of a digest returns the digest. -/
theorem digestFromStr_digestToHex (S : Nat) (d : List Nat) (hS : d.length = S)
    (hb : ∀ b ∈ d, b < 256) :
    digestFromStr S (digestToHex d) = .ok d := by
  have hlower : List.map toAsciiLower (digestToHex d) = digestToHex d := by
    conv_rhs => rw [← List.map_id (digestToHex d)]
    exact List.map_congr_left (fun a ha => (digestToHex_char_facts d hb a ha).2.1)
  simp only [digestFromStr]
  rw [hlower, trim_of_no_ws _ (fun c hc => (digestToHex_char_facts d hb c hc).1),
    stripPrefix0x_digestToHex d hb,
    if_neg (by rw [digestToHex_length, hS]; omega),
    if_neg (by rw [digestToHex_length, hS]; omega)]
  exact parsePairs_digestToHex d hb

/-- Parsing also accepts an optional `0x`/`0X` prefix, arbitrary ASCII case,
and surrounding whitespace. -/
theorem digestFromStr_accepts (S : Nat) (d : List Nat) (hS : d.length = S)
    (hb : ∀ b ∈ d, b < 256) (ws1 ws2 p t : List Nat)
    (h1 : ∀ c ∈ ws1, isWs c = true) (h2 : ∀ c ∈ ws2, isWs c = true)
    (hp : p = [] ∨ p.map toAsciiLower = [48, 120])
    (ht : t.map toAsciiLower = digestToHex d) :
    digestFromStr S (ws1 ++ p ++ t ++ ws2) = .ok d := by
  have hfix1 : List.map toAsciiLower ws1 = ws1 := by
    conv_rhs => rw [← List.map_id ws1]
    exact List.map_congr_left (fun a ha => toAsciiLower_ws a (h1 a ha))
  have hfix2 : List.map toAsciiLower ws2 = ws2 := by
    conv_rhs => rw [← List.map_id ws2]
    exact List.map_congr_left (fun a ha => toAsciiLower_ws a (h2 a ha))
  have hmap : List.map toAsciiLower (ws1 ++ p ++ t ++ ws2) =
      ws1 ++ (List.map toAsciiLower p ++ digestToHex d) ++ ws2 := by
    simp only [List.map_append, hfix1, hfix2, ht, List.append_assoc]
  have hmid : ∀ c ∈ List.map toAsciiLower p ++ digestToHex d, isWs c = false := by
    intro c hc
    rcases List.mem_append.mp hc with hcp | hcd
    · rcases hp with rfl | hp2
      · simp at hcp
      · rw [hp2] at hcp
        simp only [List.mem_cons, List.not_mem_nil, or_false] at hcp
        rcases hcp with rfl | rfl <;> decide
    · exact (digestToHex_char_facts d hb c hcd).1
  simp only [digestFromStr]
  rw [hmap, trim_sandwich ws1 _ ws2 h1 h2 hmid]
  rcases hp with rfl | hp2
  · rw [List.map_nil, List.nil_append, stripPrefix0x_digestToHex d hb,
      if_neg (by rw [digestToHex_length, hS]; omega),
      if_neg (by rw [digestToHex_length, hS]; omega)]
    exact parsePairs_digestToHex d hb
  · rw [hp2]
    have hstrip : stripPrefix0x ([48, 120] ++ digestToHex d) = digestToHex d := by
      show stripPrefix0x (48 :: 120 :: digestToHex d) = digestToHex d
      simp [stripPrefix0x]
    rw [hstrip, if_neg (by rw [digestToHex_length, hS]; omega),
      if_neg (by rw [digestToHex_length, hS]; omega)]
    exact parsePairs_digestToHex d hb

/-- C6: the hex rendering of a digest of width `S` is exactly `2S` lowercase
hex characters with no prefix; parsing it back returns the digest; parsing
also accepts an optional `0x` prefix (any ASCII case) and surrounding
whitespace; and parsing fails with `StringTooLong` / `StringTooShort` exactly
when the remaining length after lowercasing, trimming and prefix-stripping
exceeds / falls short of `2S`. -/
theorem c6_digest_hex_roundtrip (S : Nat) (d : List Nat) (hS : d.length = S)
    (hb : ∀ b ∈ d, b < 256) :
    (digestToHex d).length = 2 * S ∧
    (∀ c ∈ digestToHex d, isLowerHexDigit c = true) ∧
    digestFromStr S (digestToHex d) = .ok d ∧
    (∀ ws1 ws2 p t : List Nat, (∀ c ∈ ws1, isWs c = true) → (∀ c ∈ ws2, isWs c = true) →
      (p = [] ∨ p.map toAsciiLower = [48, 120]) → t.map toAsciiLower = digestToHex d →
      digestFromStr S (ws1 ++ p ++ t ++ ws2) = .ok d) ∧
    (∀ s : List Nat,
      (2 * S < (stripPrefix0x (trimStr (s.map toAsciiLower))).length →
        digestFromStr S s = .error .StringTooLong) ∧
      ((stripPrefix0x (trimStr (s.map toAsciiLower))).length < 2 * S →
        digestFromStr S s = .error .StringTooShort)) := by
  refine ⟨by rw [digestToHex_length, hS], ?_, digestFromStr_digestToHex S d hS hb,
    fun ws1 ws2 p t hw1 hw2 hp ht =>
      digestFromStr_accepts S d hS hb ws1 ws2 p t hw1 hw2 hp ht, fun s => ⟨?_, ?_⟩⟩
  · intro c hc
    have h := mem_digestToHex d hb c hc
    simp only [isLowerHexDigit, Bool.or_eq_true, Bool.and_eq_true, decide_eq_true_eq]
    omega
  · intro h
    unfold digestFromStr
    rw [if_pos h]
  · intro h
    unfold digestFromStr
    rw [if_neg (by omega), if_pos h]

/-- Witness for `c6_digest_hex_roundtrip` at the two-byte digest `[171, 205]`
(rendering `"abcd"`), exercising the acceptance conjunct with a space, a tab,
the prefix `"0X"` and the uppercase rendering `"ABCD"`. -/
theorem c6_digest_hex_roundtrip_witness :
    ([171, 205] : List Nat).length = 2 ∧ (∀ b ∈ ([171, 205] : List Nat), b < 256) ∧
      digestFromStr 2 ([32] ++ [48, 88] ++ [65, 66, 67, 68] ++ [9]) = .ok [171, 205] := by
  refine ⟨by decide, by decide, ?_⟩
  exact (c6_digest_hex_roundtrip 2 [171, 205] (by decide) (by decide)).2.2.2.1
    [32] [9] [48, 88] [65, 66, 67, 68] (by decide) (by decide) (by right; decide) (by decide)

/-- Witness for `c1_update_chunking`: the SHA-2 conjunct applied to `Sha256`
from `init` with the chunking `["a", "bc"]` of `"abc"`. -/
theorem c1_update_chunking_witness :
    (sha256Init.buf.length < 64) ∧
      (List.foldl (sha2Update 64 sha256Compress) sha256Init [[97], [98, 99]] =
        sha2Update 64 sha256Compress sha256Init ([[97], [98, 99]] : List (List Nat)).flatten) :=
  ⟨by decide,
    (c1_update_chunking.1 64 sha256Compress sha256Init [[97], [98, 99]] (by decide)).1⟩

set_option maxRecDepth 100000 in
/-- C3: the claim says folding the proof of `compute_proof(L, i)` with `prove`
from `L[i]` yields `compute_root(L)`'s root.  The merkle functions thread one
un-reset hasher through every pair of every level, while `prove` starts a
fresh hasher and folds only the path, so the round trip fails already for the
three distinct leaves `leavesABC` at index 2: both calls succeed, yet the
folded digest differs from the root. -/
theorem c3_prove_root_mismatch :
    (computeProof sha256Model leavesABC 2).toOption.isSome = true ∧
    (computeRoot sha256Model leavesABC).toOption.isSome = true ∧
      ((computeProof sha256Model leavesABC 2).toOption.map
        (fun pm => prove sha256Model pm.1 (List.replicate 31 0 ++ [2]))) ≠
      ((computeRoot sha256Model leavesABC).toOption.map (fun rm => rm.1.headD [])) := by
  refine ⟨by decide, by decide, ?_⟩
  decide

end BcHash
